import Mathlib

/-!
Verification of the LSDN (Livestock Disease Surveillance Network) algorithmic
core against its natural-language specification.

The disjoint-set structure (`UnionFind`) is embedded from the Python source
shown in `presentation_materials/report.md` (recursive path-compressing `find`,
union by rank).  Components whose implementation files are not in the
repository snapshot (the registry wrapper, segment tree internals, autocomplete,
priority scoring, route network, orchestrator) are modelled from the
specification, as marked on each definition.
-/

set_option maxRecDepth 4000

namespace LSDN

/-! ## UnionFind (embedded from report.md)

Python source:
```
class UnionFind:
    def __init__(self, size):
        self.parent = list(range(size))
        self.rank = [0] * size

    def find(self, x):
        if self.parent[x] != x:
            self.parent[x] = self.find(self.parent[x])
        return self.parent[x]

    def union(self, x, y):
        px, py = self.find(x), self.find(y)
        if px != py:
            if self.rank[px] < self.rank[py]:
                self.parent[px] = py
            else:
                self.parent[py] = px
                if self.rank[px] == self.rank[py]:
                    self.rank[px] += 1
```
The recursion in `find` is modelled with explicit fuel (the number of
elements); on every state whose parent chains reach a root the fuel is
sufficient, as proved below (`rootAux_adequate`).
-/

structure UnionFind where
  parent : List Nat
  rank : List Nat
deriving Repr, DecidableEq

/-- Constructor `UnionFind.__init__`: parent = list(range(size)),
rank = [0]*size. -/
def UnionFind.init (size : Nat) : UnionFind :=
  ⟨List.range size, List.replicate size 0⟩

/-- Reading `self.parent[x]`; out-of-range indices are their own parent. -/
def pOf (p : List Nat) (x : Nat) : Nat := p.getD x x

/-- The root test `parent[x] == x`. -/
def isRoot (p : List Nat) (x : Nat) : Prop := pOf p x = x

instance (p : List Nat) (x : Nat) : Decidable (isRoot p x) := by
  unfold isRoot; infer_instance

/-- Fuel-indexed root chase: follow parent pointers (no mutation). -/
def rootAux : Nat → List Nat → Nat → Nat
  | 0, _, x => x
  | fuel+1, p, x => if pOf p x = x then x else rootAux fuel p (pOf p x)

/-- The root of `x`, chased with fuel = number of elements. -/
def rootOf (p : List Nat) (x : Nat) : Nat := rootAux p.length p x

/-- Method `UnionFind.find` from report.md: recursive, with path compression on the
way back up (`self.parent[x] = self.find(self.parent[x])`).  Returns the root
together with the mutated structure. -/
def findAux : Nat → UnionFind → Nat → Nat × UnionFind
  | 0, uf, x => (x, uf)
  | fuel+1, uf, x =>
    if pOf uf.parent x = x then (x, uf)
    else
      let res := findAux fuel uf (pOf uf.parent x)
      (res.1, { res.2 with parent := res.2.parent.set x res.1 })

def UnionFind.find (uf : UnionFind) (x : Nat) : Nat × UnionFind :=
  findAux uf.parent.length uf x

/-- Call depth of the recursive `find` from report.md: one stack frame per
node visited along the parent chain (`findAux`'s recursion structure). -/
def findCallDepthAux : Nat → List Nat → Nat → Nat
  | 0, _, _ => 0
  | fuel+1, p, x => if pOf p x = x then 1 else 1 + findCallDepthAux fuel p (pOf p x)

def UnionFind.findCallDepth (uf : UnionFind) (x : Nat) : Nat :=
  findCallDepthAux uf.parent.length uf.parent x

/-- The linking tail of `UnionFind.union` from report.md: given the two roots,
if distinct, link by rank, incrementing the rank on a tie. -/
def UnionFind.link (uf2 : UnionFind) (px py : Nat) : UnionFind :=
  if px = py then uf2
  else if uf2.rank.getD px 0 < uf2.rank.getD py 0 then
    { uf2 with parent := uf2.parent.set px py }
  else
    let uf3 : UnionFind := { uf2 with parent := uf2.parent.set py px }
    if uf2.rank.getD px 0 = uf2.rank.getD py 0 then
      { uf3 with rank := uf3.rank.set px (uf3.rank.getD px 0 + 1) }
    else uf3

/-- Method `UnionFind.union` from report.md:
`px, py = self.find(x), self.find(y)` followed by the rank-based linking. -/
def UnionFind.union (uf : UnionFind) (x y : Nat) : UnionFind :=
  let rx := uf.find x
  let ry := rx.2.find y
  ry.2.link rx.1 ry.1

/-! ### Semantic apparatus: chains to roots and validity -/

/-- Relation `Chain p x r`: following parent pointers from `x` terminates at
the root `r`. -/
inductive Chain (p : List Nat) : Nat → Nat → Prop where
  | root (x : Nat) (h : pOf p x = x) : Chain p x x
  | step (x r : Nat) (h : pOf p x ≠ x) (tail : Chain p (pOf p x) r) : Chain p x r

/-- A well-formed union-find parent array: entries in range, every chain
reaches a root. -/
def Valid (p : List Nat) : Prop :=
  (∀ x, x < p.length → pOf p x < p.length) ∧ (∀ x, ∃ r, Chain p x r)

lemma chain_isRoot {p : List Nat} {x r : Nat} (h : Chain p x r) : isRoot p r := by
  induction h with
  | root x h => exact h
  | step x r h tail ih => exact ih

lemma chain_of_isRoot {p : List Nat} {x : Nat} (h : isRoot p x) : Chain p x x :=
  Chain.root x h

lemma chain_functional {p : List Nat} {x r s : Nat}
    (h1 : Chain p x r) (h2 : Chain p x s) : r = s := by
  induction h1 with
  | root x h =>
    cases h2 with
    | root _ _ => rfl
    | step _ _ h' _ => exact absurd h h'
  | step x r h tail ih =>
    cases h2 with
    | root _ h' => exact absurd h' h
    | step _ _ _ tail' => exact ih tail'

lemma pOf_out_of_range {p : List Nat} {x : Nat} (h : p.length ≤ x) : pOf p x = x := by
  simp [pOf, List.getD_eq_getElem?_getD, List.getElem?_eq_none (by omega : p.length ≤ x)]

lemma isRoot_out_of_range {p : List Nat} {x : Nat} (h : p.length ≤ x) : isRoot p x :=
  pOf_out_of_range h

lemma chain_lt {p : List Nat} (hrange : ∀ x, x < p.length → pOf p x < p.length)
    {x r : Nat} (hx : x < p.length) (h : Chain p x r) : r < p.length := by
  induction h with
  | root x h => exact hx
  | step x r h tail ih => exact ih (hrange x hx)

lemma rootAux_root {p : List Nat} {x : Nat} (h : isRoot p x) :
    ∀ f, rootAux f p x = x := by
  intro f
  have h' : pOf p x = x := h
  cases f with
  | zero => rfl
  | succ f => simp [rootAux, h']

lemma rootAux_lt {p : List Nat} (hrange : ∀ x, x < p.length → pOf p x < p.length)
    {x : Nat} (hx : x < p.length) : ∀ f, rootAux f p x < p.length := by
  intro f
  induction f generalizing x with
  | zero => exact hx
  | succ f ih =>
    by_cases h : pOf p x = x
    · simpa [rootAux, h] using hx
    · simpa [rootAux, h] using ih (hrange x hx)

/-- Composing fuels: chase `a` steps, then `b` more. -/
lemma rootAux_add (p : List Nat) (a b x : Nat) :
    rootAux (a + b) p x = rootAux b p (rootAux a p x) := by
  induction a generalizing x with
  | zero => simp [rootAux]
  | succ a ih =>
    by_cases h : pOf p x = x
    · rw [rootAux_root h, rootAux_root h, rootAux_root h]
    · have : a + 1 + b = (a + b) + 1 := by omega
      rw [this]
      simp only [rootAux, h, if_neg h]
      exact ih (pOf p x)

lemma rootAux_stable {p : List Nat} {f x : Nat}
    (h : isRoot p (rootAux f p x)) {g : Nat} (hfg : f ≤ g) :
    rootAux g p x = rootAux f p x := by
  obtain ⟨k, rfl⟩ := Nat.exists_eq_add_of_le hfg
  rw [rootAux_add, rootAux_root h]

/-- A `Chain` yields a fuel witness. -/
lemma chain_fuel {p : List Nat} {x r : Nat} (h : Chain p x r) :
    ∃ f, rootAux f p x = r := by
  induction h with
  | root x h => exact ⟨0, rfl⟩
  | step x r h tail ih =>
    obtain ⟨f, hf⟩ := ih
    exact ⟨f + 1, by simp [rootAux, h, hf]⟩

/-- A rooted fuel computation yields a `Chain`. -/
lemma chain_of_fuel {p : List Nat} {f x : Nat} (h : isRoot p (rootAux f p x)) :
    Chain p x (rootAux f p x) := by
  induction f generalizing x with
  | zero => exact Chain.root x h
  | succ f ih =>
    by_cases hx : pOf p x = x
    · simp only [rootAux, hx, if_pos rfl]
      exact Chain.root x hx
    · simp only [rootAux, hx, if_neg hx] at h ⊢
      exact Chain.step x _ hx (ih h)

/-- Fuel = number of elements always suffices to reach the root on a valid
parent array (the chain visits pairwise distinct in-range elements). -/
lemma rootAux_adequate {p : List Nat} (hv : Valid p) (x : Nat) :
    isRoot p (rootAux p.length p x) := by
  obtain ⟨hrange, htotal⟩ := hv
  set n := p.length with hn
  by_cases hx : x < n
  · obtain ⟨r, hr⟩ := htotal x
    obtain ⟨f, hf⟩ := chain_fuel hr
    have hPf : isRoot p (rootAux f p x) := hf ▸ chain_isRoot hr
    have hex : ∃ g, isRoot p (rootAux g p x) := ⟨f, hPf⟩
    classical
    set f0 := Nat.find hex with hf0
    have hspec : isRoot p (rootAux f0 p x) := Nat.find_spec hex
    have hle : f0 ≤ n := by
      by_contra hgt
      push_neg at hgt
      have key : ∀ i j : Fin (n + 1), (i : Nat) < j →
          rootAux i p x = rootAux j p x → False := by
        intro i j hij heq
        have hj : (j : Nat) ≤ n := Nat.lt_succ_iff.mp j.isLt
        have hjf : (j : Nat) < f0 := lt_of_le_of_lt hj hgt
        have h1 : rootAux ((i : Nat) + (f0 - j)) p x = rootAux f0 p x := by
          rw [rootAux_add, heq, ← rootAux_add]
          congr 1
          omega
        have h2 : isRoot p (rootAux ((i : Nat) + (f0 - j)) p x) := h1 ▸ hspec
        have h3 : (i : Nat) + (f0 - j) < f0 := by omega
        exact Nat.find_min hex h3 h2
      have hinj : Function.Injective
          (fun i : Fin (n + 1) => (⟨rootAux i p x, rootAux_lt hrange hx i⟩ : Fin n)) := by
        intro i j hijeq
        have heq : rootAux i p x = rootAux j p x := congrArg Fin.val hijeq
        rcases Nat.lt_trichotomy (i : Nat) (j : Nat) with h | h | h
        · exact absurd heq (fun hh => key i j h hh)
        · exact Fin.ext h
        · exact absurd heq.symm (fun hh => key j i h hh)
      have := Fintype.card_le_of_injective _ hinj
      simp [Fintype.card_fin] at this
    have := rootAux_stable hspec hle
    rw [this]
    exact hspec
  · push_neg at hx
    have : pOf p x = x := pOf_out_of_range hx
    rw [rootAux_root this]
    exact this

lemma rootOf_isRoot {p : List Nat} (hv : Valid p) (x : Nat) :
    isRoot p (rootOf p x) :=
  rootAux_adequate hv x

lemma chain_rootOf {p : List Nat} (hv : Valid p) (x : Nat) :
    Chain p x (rootOf p x) :=
  chain_of_fuel (rootAux_adequate hv x)

lemma rootOf_eq_of_chain {p : List Nat} (hv : Valid p) {x r : Nat}
    (h : Chain p x r) : rootOf p x = r :=
  chain_functional (chain_rootOf hv x) h

lemma rootOf_lt {p : List Nat} (hv : Valid p) {x : Nat} (hx : x < p.length) :
    rootOf p x < p.length :=
  rootAux_lt hv.1 hx p.length

/-! ### Point updates that preserve the partition -/

lemma pOf_set (p : List Nat) (x r y : Nat) :
    pOf (p.set x r) y = if y = x ∧ x < p.length then r else pOf p y := by
  by_cases hxy : x = y
  · subst hxy
    by_cases hlen : x < p.length
    · simp [pOf, List.getD_eq_getElem?_getD, List.getElem?_set, hlen]
    · simp [pOf, List.getD_eq_getElem?_getD, List.getElem?_set, hlen,
        List.getElem?_eq_none (le_of_not_lt hlen)]
  · have hyx : ¬(y = x) := fun h => hxy h.symm
    simp [pOf, List.getD_eq_getElem?_getD, List.getElem?_set, hxy, hyx]

lemma pOf_set_self {p : List Nat} {x r : Nat} (hx : x < p.length) :
    pOf (p.set x r) x = r := by
  rw [pOf_set]
  simp [hx]

lemma pOf_set_ne {p : List Nat} (x r : Nat) {y : Nat} (h : y ≠ x) :
    pOf (p.set x r) y = pOf p y := by
  rw [pOf_set]
  simp [h]

/-- Path compression step: pointing `x` straight at its own root changes no
chain endpoint. -/
lemma chain_set_compress {p : List Nat} {x r : Nat} (hx : Chain p x r) :
    ∀ {z s : Nat}, Chain p z s → Chain (p.set x r) z s := by
  intro z s h
  induction h with
  | root z hz =>
    by_cases hzx : z = x
    · have hzz : Chain p x z := by rw [← hzx]; exact Chain.root z hz
      have hr : r = z := chain_functional hx hzz
      refine Chain.root z ?_
      rw [pOf_set]
      split
      · exact hr
      · exact hz
    · exact Chain.root z (by rw [pOf_set_ne x r hzx]; exact hz)
  | step z s hz tail ih =>
    by_cases hzx : z = x
    · have hxs : Chain p x s := by rw [← hzx]; exact Chain.step z s hz tail
      have hrs : r = s := chain_functional hx hxs
      have hlen : x < p.length := by
        by_contra hlen
        push_neg at hlen
        rw [hzx] at hz
        exact hz (pOf_out_of_range hlen)
      have hroot : isRoot p s := chain_isRoot tail
      have hne : s ≠ x := by
        intro hsx
        rw [hzx] at hz
        rw [← hsx] at hz
        exact hz hroot
      rw [hzx, hrs]
      have h1 : pOf (p.set x s) x = s := pOf_set_self hlen
      refine Chain.step x s (by rw [h1]; exact hne) ?_
      rw [h1]
      exact Chain.root s (by rw [pOf_set_ne x s hne]; exact hroot)
    · have hpz : pOf (p.set x r) z = pOf p z := pOf_set_ne x r hzx
      exact Chain.step z s (by rw [hpz]; exact hz) (by rw [hpz]; exact ih)

/-- Linking step of `union`: pointing root `a` at root `b` redirects exactly
the chains that ended at `a`. -/
lemma chain_set_link {p : List Nat} {a b : Nat} (ha : isRoot p a) (hb : isRoot p b)
    (halen : a < p.length) :
    ∀ {z s : Nat}, Chain p z s → Chain (p.set a b) z (if s = a then b else s) := by
  intro z s h
  induction h with
  | root z hz =>
    by_cases hza : z = a
    · rw [if_pos hza, hza]
      by_cases hba : b = a
      · rw [hba]
        exact Chain.root a (pOf_set_self halen)
      · refine Chain.step a b (by rw [pOf_set_self halen]; exact hba) ?_
        rw [pOf_set_self halen]
        exact Chain.root b (by rw [pOf_set_ne a b hba]; exact hb)
    · rw [if_neg hza]
      exact Chain.root z (by rw [pOf_set_ne a b hza]; exact hz)
  | step z s hz tail ih =>
    have hza : z ≠ a := by
      intro h
      rw [h] at hz
      exact hz ha
    have hpz : pOf (p.set a b) z = pOf p z := pOf_set_ne a b hza
    exact Chain.step z _ (by rw [hpz]; exact hz) (by rw [hpz]; exact ih)

lemma valid_set_compress {p : List Nat} {x r : Nat} (hv : Valid p)
    (hx : Chain p x r) : Valid (p.set x r) := by
  refine ⟨?_, ?_⟩
  · intro y hy
    rw [List.length_set] at hy ⊢
    rw [pOf_set]
    split
    next h => exact chain_lt hv.1 h.2 hx
    next => exact hv.1 y hy
  · intro z
    obtain ⟨s, hs⟩ := hv.2 z
    exact ⟨s, chain_set_compress hx hs⟩

lemma valid_set_link {p : List Nat} {a b : Nat} (hv : Valid p)
    (ha : isRoot p a) (hb : isRoot p b) (halen : a < p.length) (hblen : b < p.length) :
    Valid (p.set a b) := by
  refine ⟨?_, ?_⟩
  · intro y hy
    rw [List.length_set] at hy ⊢
    rw [pOf_set]
    split
    · exact hblen
    · exact hv.1 y hy
  · intro z
    obtain ⟨s, hs⟩ := hv.2 z
    exact ⟨_, chain_set_link ha hb halen hs⟩

lemma preserved_rootOf {p q : List Nat} (hvp : Valid p) (hvq : Valid q)
    (hpres : ∀ z s, Chain p z s → Chain q z s) (z : Nat) :
    rootOf q z = rootOf p z :=
  rootOf_eq_of_chain hvq (hpres z _ (chain_rootOf hvp z))

lemma rootOf_set_compress {p : List Nat} {x r : Nat} (hv : Valid p)
    (hx : Chain p x r) (z : Nat) : rootOf (p.set x r) z = rootOf p z :=
  preserved_rootOf hv (valid_set_compress hv hx) (fun _ _ h => chain_set_compress hx h) z

lemma rootOf_set_link {p : List Nat} {a b : Nat} (hv : Valid p)
    (ha : isRoot p a) (hb : isRoot p b) (halen : a < p.length) (hblen : b < p.length)
    (z : Nat) :
    rootOf (p.set a b) z = if rootOf p z = a then b else rootOf p z :=
  rootOf_eq_of_chain (valid_set_link hv ha hb halen hblen)
    (chain_set_link ha hb halen (chain_rootOf hv z))

lemma rootOf_of_isRoot {p : List Nat} (hv : Valid p) {r : Nat} (h : isRoot p r) :
    rootOf p r = r :=
  rootOf_eq_of_chain hv (Chain.root r h)

/-- Full specification of the recursive, path-compressing `findAux`: with
adequate fuel it returns the chased root, keeps lengths and ranks, preserves
validity, and preserves every chain endpoint (the partition). -/
lemma findAux_spec (uf : UnionFind) : ∀ (f x : Nat), Valid uf.parent →
    isRoot uf.parent (rootAux f uf.parent x) →
    (findAux f uf x).1 = rootAux f uf.parent x ∧
    (findAux f uf x).2.parent.length = uf.parent.length ∧
    (findAux f uf x).2.rank = uf.rank ∧
    Valid (findAux f uf x).2.parent ∧
    (∀ z s, Chain uf.parent z s → Chain (findAux f uf x).2.parent z s) := by
  intro f
  induction f with
  | zero =>
    intro x hv _
    exact ⟨rfl, rfl, rfl, hv, fun _ _ h => h⟩
  | succ f ih =>
    intro x hv hf
    by_cases hx : pOf uf.parent x = x
    · rw [show findAux (f + 1) uf x = (x, uf) from by simp [findAux, hx],
        show rootAux (f + 1) uf.parent x = x from by simp [rootAux, hx]]
      exact ⟨rfl, rfl, rfl, hv, fun _ _ h => h⟩
    · have hrw : rootAux (f + 1) uf.parent x = rootAux f uf.parent (pOf uf.parent x) := by
        simp only [rootAux, if_neg hx]
      rw [hrw] at hf
      obtain ⟨h1, h2, h3, h4, h5⟩ := ih (pOf uf.parent x) hv hf
      have hstep : findAux (f + 1) uf x =
          ((findAux f uf (pOf uf.parent x)).1,
            { (findAux f uf (pOf uf.parent x)).2 with
              parent := (findAux f uf (pOf uf.parent x)).2.parent.set x
                (findAux f uf (pOf uf.parent x)).1 }) := by
        simp only [findAux, if_neg hx]
      have hchain : Chain uf.parent x (rootAux f uf.parent (pOf uf.parent x)) := by
        have := chain_of_fuel (f := f + 1) (x := x) (by rw [hrw]; exact hf)
        rwa [hrw] at this
      have hchain2 : Chain (findAux f uf (pOf uf.parent x)).2.parent x
          ((findAux f uf (pOf uf.parent x)).1) := by
        rw [h1]
        exact h5 x _ hchain
      rw [hstep, hrw]
      refine ⟨h1, ?_, h3, ?_, ?_⟩
      · simp [List.length_set, h2]
      · exact valid_set_compress h4 hchain2
      · intro z s h
        exact chain_set_compress hchain2 (h5 z s h)

/-- Behaviour of `UnionFind.find` on a valid structure. -/
lemma find_spec (uf : UnionFind) (hv : Valid uf.parent) (x : Nat) :
    (uf.find x).1 = rootOf uf.parent x ∧
    (uf.find x).2.parent.length = uf.parent.length ∧
    (uf.find x).2.rank = uf.rank ∧
    Valid (uf.find x).2.parent ∧
    (∀ z, rootOf (uf.find x).2.parent z = rootOf uf.parent z) := by
  obtain ⟨h1, h2, h3, h4, h5⟩ :=
    findAux_spec uf uf.parent.length x hv (rootAux_adequate hv x)
  exact ⟨h1, h2, h3, h4, preserved_rootOf hv h4 h5⟩

/-- Behaviour of the linking step on two roots of a valid structure. -/
lemma link_spec (uf2 : UnionFind) (hv : Valid uf2.parent) {px py : Nat}
    (hpx : isRoot uf2.parent px) (hpy : isRoot uf2.parent py)
    (hpxl : px < uf2.parent.length) (hpyl : py < uf2.parent.length) :
    Valid (uf2.link px py).parent ∧
    (uf2.link px py).parent.length = uf2.parent.length ∧
    ∃ R, (R = px ∨ R = py) ∧
      ∀ z, rootOf (uf2.link px py).parent z =
        if rootOf uf2.parent z = px ∨ rootOf uf2.parent z = py then R
        else rootOf uf2.parent z := by
  unfold UnionFind.link
  by_cases heq : px = py
  · rw [if_pos heq]
    refine ⟨hv, rfl, px, Or.inl rfl, ?_⟩
    intro z
    subst heq
    split
    next h => rcases h with h | h <;> exact h
    next => rfl
  · rw [if_neg heq]
    by_cases hrank : uf2.rank.getD px 0 < uf2.rank.getD py 0
    · rw [if_pos hrank]
      refine ⟨valid_set_link hv hpx hpy hpxl hpyl, List.length_set _ _ _, py, Or.inr rfl, ?_⟩
      intro z
      rw [rootOf_set_link hv hpx hpy hpxl hpyl z]
      by_cases h1 : rootOf uf2.parent z = px
      · simp [h1]
      · by_cases h2 : rootOf uf2.parent z = py
        · simp [h1, h2]
        · simp [h1, h2]
    · rw [if_neg hrank]
      have hparent : (if uf2.rank.getD px 0 = uf2.rank.getD py 0 then
          { { uf2 with parent := uf2.parent.set py px } with
            rank := ({ uf2 with parent := uf2.parent.set py px } : UnionFind).rank.set px
              (({ uf2 with parent := uf2.parent.set py px } : UnionFind).rank.getD px 0 + 1) }
          else { uf2 with parent := uf2.parent.set py px }).parent
          = uf2.parent.set py px := by
        split <;> rfl
      rw [hparent]
      refine ⟨valid_set_link hv hpy hpx hpyl hpxl, List.length_set _ _ _, px, Or.inl rfl, ?_⟩
      intro z
      rw [rootOf_set_link hv hpy hpx hpyl hpxl z]
      by_cases h1 : rootOf uf2.parent z = px
      · have h2 : rootOf uf2.parent z ≠ py := by rw [h1]; exact heq
        simp [h1, h2]
      · by_cases h2 : rootOf uf2.parent z = py
        · simp [h1, h2]
        · simp [h1, h2]

/-- Behaviour of `UnionFind.union` on a valid structure: the partition's root
map is redirected exactly on the two merged classes. -/
lemma union_spec (uf : UnionFind) (hv : Valid uf.parent) (x y : Nat)
    (hx : x < uf.parent.length) (hy : y < uf.parent.length) :
    Valid (uf.union x y).parent ∧
    (uf.union x y).parent.length = uf.parent.length ∧
    ∃ R, (R = rootOf uf.parent x ∨ R = rootOf uf.parent y) ∧
      ∀ z, rootOf (uf.union x y).parent z =
        if rootOf uf.parent z = rootOf uf.parent x ∨
            rootOf uf.parent z = rootOf uf.parent y
        then R else rootOf uf.parent z := by
  obtain ⟨hf1, hf2, hf3, hf4, hf5⟩ := find_spec uf hv x
  obtain ⟨hg1, hg2, hg3, hg4, hg5⟩ := find_spec (uf.find x).2 hf4 y
  have hunion : uf.union x y = ((uf.find x).2.find y).2.link (uf.find x).1
      ((uf.find x).2.find y).1 := rfl
  have hroots : ∀ z, rootOf ((uf.find x).2.find y).2.parent z = rootOf uf.parent z :=
    fun z => (hg5 z).trans (hf5 z)
  have hlen2 : ((uf.find x).2.find y).2.parent.length = uf.parent.length :=
    hg2.trans hf2
  have hpx : (uf.find x).1 = rootOf uf.parent x := hf1
  have hpy : ((uf.find x).2.find y).1 = rootOf uf.parent y :=
    hg1.trans (hf5 y)
  have hpxroot2 : rootOf ((uf.find x).2.find y).2.parent (rootOf uf.parent x)
      = rootOf uf.parent x := by
    rw [hroots]
    exact rootOf_of_isRoot hv (rootOf_isRoot hv x)
  have hpyroot2 : rootOf ((uf.find x).2.find y).2.parent (rootOf uf.parent y)
      = rootOf uf.parent y := by
    rw [hroots]
    exact rootOf_of_isRoot hv (rootOf_isRoot hv y)
  have hpxr : isRoot ((uf.find x).2.find y).2.parent (rootOf uf.parent x) := by
    have := rootOf_isRoot hg4 (rootOf uf.parent x)
    rwa [hpxroot2] at this
  have hpyr : isRoot ((uf.find x).2.find y).2.parent (rootOf uf.parent y) := by
    have := rootOf_isRoot hg4 (rootOf uf.parent y)
    rwa [hpyroot2] at this
  have hpxl : rootOf uf.parent x < ((uf.find x).2.find y).2.parent.length := by
    rw [hlen2]
    exact rootOf_lt hv hx
  have hpyl : rootOf uf.parent y < ((uf.find x).2.find y).2.parent.length := by
    rw [hlen2]
    exact rootOf_lt hv hy
  obtain ⟨hl1, hl2, R, hR, hRz⟩ := link_spec _ hg4 hpxr hpyr hpxl hpyl
  rw [hunion, hpx, hpy]
  refine ⟨hl1, hl2.trans hlen2, R, hR, ?_⟩
  intro z
  rw [hRz z, hroots z]

/-- Case analysis on the merged root map: equality of redirected roots is
exactly "already together, or on the two merged classes". -/
lemma merge_ite_iff (rx ry ra rb R : Nat) (hR : R = rx ∨ R = ry) :
    ((if ra = rx ∨ ra = ry then R else ra) = (if rb = rx ∨ rb = ry then R else rb)) ↔
      (ra = rb ∨ (ra = rx ∧ rb = ry) ∨ (ra = ry ∧ rb = rx)) := by
  by_cases h1 : ra = rx <;> by_cases h2 : ra = ry <;>
    by_cases h3 : rb = rx <;> by_cases h4 : rb = ry <;>
    rcases hR with rfl | rfl <;> simp [h1, h2, h3, h4] <;> omega

/-- Establishing `Valid` for a concrete structure by bounded checks. -/
lemma valid_of_checks (p : List Nat)
    (h1 : ∀ x, x < p.length → pOf p x < p.length)
    (h2 : ∀ x, x < p.length → isRoot p (rootAux p.length p x)) : Valid p := by
  refine ⟨h1, ?_⟩
  intro z
  by_cases hz : z < p.length
  · exact ⟨rootAux p.length p z, chain_of_fuel (h2 z hz)⟩
  · exact ⟨z, Chain.root z (pOf_out_of_range (le_of_not_lt hz))⟩

/-- C9: on a valid disjoint-set state, `find` returns an element that is its
own parent, path compression never changes the partition (two elements share
a root after a `find` exactly when they did before), and `union x y` merges
exactly the two classes containing `x` and `y`, leaving every other class
unchanged. -/
theorem c9_find_union_partition (uf : UnionFind) (hv : Valid uf.parent)
    (x y : Nat) (hx : x < uf.parent.length) (hy : y < uf.parent.length) :
    (isRoot uf.parent (uf.find x).1 ∧ isRoot (uf.find x).2.parent (uf.find x).1) ∧
    (∀ a b : Nat,
      (rootOf (uf.find x).2.parent a = rootOf (uf.find x).2.parent b) ↔
        (rootOf uf.parent a = rootOf uf.parent b)) ∧
    (∀ a b : Nat,
      (rootOf (uf.union x y).parent a = rootOf (uf.union x y).parent b) ↔
        (rootOf uf.parent a = rootOf uf.parent b ∨
          (rootOf uf.parent a = rootOf uf.parent x ∧
            rootOf uf.parent b = rootOf uf.parent y) ∨
          (rootOf uf.parent a = rootOf uf.parent y ∧
            rootOf uf.parent b = rootOf uf.parent x))) := by
  obtain ⟨hf1, hf2, hf3, hf4, hf5⟩ := find_spec uf hv x
  obtain ⟨hu1, hu2, R, hR, hRz⟩ := union_spec uf hv x y hx hy
  refine ⟨⟨?_, ?_⟩, ?_, ?_⟩
  · rw [hf1]
    exact rootOf_isRoot hv x
  · rw [hf1]
    have h := rootOf_isRoot hf4 (rootOf uf.parent x)
    rwa [hf5, rootOf_of_isRoot hv (rootOf_isRoot hv x)] at h
  · intro a b
    rw [hf5 a, hf5 b]
  · intro a b
    rw [hRz a, hRz b]
    exact merge_ite_iff _ _ _ _ R hR

/-- Witness for C9 at a concrete instance: after `union 0 1` on a fresh
three-element structure, 0 and 1 share a root. -/
theorem c9_find_union_partition_witness :
    rootOf ((UnionFind.init 3).union 0 1).parent 0 =
      rootOf ((UnionFind.init 3).union 0 1).parent 1 :=
  ((c9_find_union_partition (UnionFind.init 3)
      (valid_of_checks _ (by decide) (by decide)) 0 1 (by decide)
      (by decide)).2.2 0 1).mpr
    (Or.inr (Or.inl ⟨by decide, by decide⟩))

/-! ## C2: call depth of the recursive find -/

/-- A pathological parent chain: `parent = [0, 0, 1, 2, ..., n-2]`, i.e.
element `i` points at `i - 1` and `0` is the root. -/
def chainUF (n : Nat) : UnionFind :=
  ⟨(List.range n).map (fun i => i - 1), List.replicate n 0⟩

lemma chain_pOf (n x : Nat) :
    pOf ((List.range n).map (fun i => i - 1)) x = if x < n then x - 1 else x := by
  by_cases h : x < n
  · simp [pOf, List.getD_eq_getElem?_getD, List.getElem?_map, List.getElem?_range h, h]
  · rw [pOf_out_of_range (by simpa using le_of_not_lt h)]
    simp [h]

lemma chain_depth_aux (n : Nat) :
    ∀ x f, x < n → x < f →
      findCallDepthAux f ((List.range n).map (fun i => i - 1)) x = x + 1 := by
  intro x
  induction x with
  | zero =>
    intro f hn hf
    obtain ⟨f', rfl⟩ := Nat.exists_eq_succ_of_ne_zero (by omega : f ≠ 0)
    have h0 : pOf ((List.range n).map (fun i => i - 1)) 0 = 0 := by
      rw [chain_pOf]
      simp [hn]
    simp [findCallDepthAux, h0]
  | succ x ih =>
    intro f hn hf
    obtain ⟨f', rfl⟩ := Nat.exists_eq_succ_of_ne_zero (by omega : f ≠ 0)
    have hstep : pOf ((List.range n).map (fun i => i - 1)) (x + 1) = x := by
      rw [chain_pOf]
      simp [hn]
    have hne : ¬(pOf ((List.range n).map (fun i => i - 1)) (x + 1) = x + 1) := by
      rw [hstep]
      omega
    rw [findCallDepthAux, hstep, if_neg (by omega : ¬(x = x + 1)),
      ih f' (by omega) (by omega)]
    omega

/-- C2 (amended): the `find` of report.md performs path compression
recursively (one pass, `parent[x] = find(parent[x])`), and on the chain
`0 ← 1 ← ... ← n-1` a `find` on element `x` needs `x + 1` nested calls —
call depth proportional to the chain length, not bounded. -/
theorem c2_find_call_depth_linear (n x : Nat) (hx : x < n) :
    (chainUF n).findCallDepth x = x + 1 := by
  have hlen : (chainUF n).parent.length = n := by
    simp [chainUF]
  unfold UnionFind.findCallDepth
  rw [hlen]
  exact chain_depth_aux n x n hx hx

/-- Witness for the amended C2 theorem at a concrete chain. -/
theorem c2_find_call_depth_linear_witness :
    (chainUF 500).findCallDepth 499 = 500 :=
  c2_find_call_depth_linear 500 499 (by decide)

/-- Counterexample to C2 as stated: the call depth of `find` on parent chains
is proportional to the chain length — on chains of length 100 and 200 the
recursive `find` at the deep end needs 100 resp. 200 nested calls. -/
theorem c2_counterexample_depth_grows :
    (chainUF 100).findCallDepth 99 = 100 ∧
    (chainUF 200).findCallDepth 199 = 200 := by
  constructor <;> decide

/-! ## ClusterRegistry (C1) -/

inductive CRError where
  | notFound
deriving Repr, DecidableEq

/-- Modelled from the spec: the named-location registry around the report.md
`UnionFind` (its wrapper module is not in the repository snapshot).  Locations
are kept in registration order; the disjoint-set element of a location is its
registration index. -/
structure ClusterRegistry where
  locations : List String
  uf : UnionFind
deriving Repr

def ClusterRegistry.empty : ClusterRegistry := ⟨[], ⟨[], []⟩⟩

/-- Modelled from the spec: `addLocation(name)` registers a new location
(idempotent); the disjoint-set gains a fresh singleton root. -/
def ClusterRegistry.addLocation (r : ClusterRegistry) (name : String) : ClusterRegistry :=
  if name ∈ r.locations then r
  else
    ⟨r.locations ++ [name],
      ⟨r.uf.parent ++ [r.uf.parent.length], r.uf.rank ++ [0]⟩⟩

def ClusterRegistry.indexOf? (r : ClusterRegistry) (name : String) : Option Nat :=
  r.locations.findIdx? (· == name)

/-- Modelled from the spec: `union(nameA, nameB)` merges the two locations'
groups, failing with `NotFoundError` if either name is unregistered. -/
def ClusterRegistry.union (r : ClusterRegistry) (a b : String) :
    Except CRError ClusterRegistry :=
  match r.indexOf? a, r.indexOf? b with
  | some i, some j => .ok { r with uf := r.uf.union i j }
  | _, _ => .error .notFound

/-- Modelled from the spec: `connected(nameA, nameB)` — whether the two
locations share a representative (two `find` calls, as the inner `UnionFind`
exposes them). -/
def ClusterRegistry.connected (r : ClusterRegistry) (a b : String) : Bool :=
  match r.indexOf? a, r.indexOf? b with
  | some i, some j =>
    let ri := r.uf.find i
    let rj := ri.2.find j
    ri.1 == rj.1
  | _, _ => false

/-- Modelled from the spec: `clusterOf(name)` returns the full membership of
the location's group. -/
def ClusterRegistry.clusterOf (r : ClusterRegistry) (name : String) : List String :=
  r.locations.filter (fun m => r.connected name m)

/-- The three-location scenario of the spec's testable property. -/
def c1Registry : ClusterRegistry :=
  ((ClusterRegistry.empty.addLocation "Ngaoundéré").addLocation "Tibati").addLocation "Mbé"

def c1Run : Except CRError ClusterRegistry := do
  let r1 ← c1Registry.union "Ngaoundéré" "Tibati"
  r1.union "Tibati" "Mbé"

/-- C1: after `union("Ngaoundéré","Tibati")` and `union("Tibati","Mbé")` on
the three registered locations, `connected("Ngaoundéré","Mbé")` is true and
`clusterOf` of each of the three returns exactly the member set
{Ngaoundéré, Tibati, Mbé}. -/
theorem c1_cluster_members :
    (c1Run.map fun r =>
      (r.connected "Ngaoundéré" "Mbé",
        r.clusterOf "Ngaoundéré", r.clusterOf "Tibati", r.clusterOf "Mbé")) =
    .ok (true, ["Ngaoundéré", "Tibati", "Mbé"], ["Ngaoundéré", "Tibati", "Mbé"],
      ["Ngaoundéré", "Tibati", "Mbé"]) := by
  rfl

/-! ## MortalityLedger (C3, C4)

The report.md skeleton gives `tree = [0] * (4 * size)` with `update`/`query`
delegating to `_update(1, 0, self.size - 1, ...)` and
`_query(1, 0, self.size - 1, ...)`; the recursive internals are modelled from
the spec (O(log H) point add and range sum), in the classic form those calls
imply.  Recursion is by fuel; `size + 1` is far above the tree depth. -/

def stUpdate : Nat → List Nat → Nat → Nat → Nat → Nat → Nat → List Nat
  | 0, t, _, _, _, _, _ => t
  | fuel+1, t, node, l, r, idx, val =>
    if l = r then
      t.set node (t.getD node 0 + val)
    else
      let mid := (l + r) / 2
      let t' := if idx ≤ mid then stUpdate fuel t (2*node) l mid idx val
        else stUpdate fuel t (2*node+1) (mid+1) r idx val
      t'.set node (t'.getD (2*node) 0 + t'.getD (2*node+1) 0)

def stQuery : Nat → List Nat → Nat → Nat → Nat → Nat → Nat → Nat
  | 0, _, _, _, _, _, _ => 0
  | fuel+1, t, node, l, r, ql, qr =>
    if qr < l ∨ r < ql then 0
    else if ql ≤ l ∧ r ≤ qr then t.getD node 0
    else
      let mid := (l + r) / 2
      stQuery fuel t (2*node) l mid ql qr + stQuery fuel t (2*node+1) (mid+1) r ql qr

structure SegmentTree where
  size : Nat
  tree : List Nat
deriving Repr

def SegmentTree.create (size : Nat) : SegmentTree :=
  ⟨size, List.replicate (4 * size) 0⟩

def SegmentTree.update (st : SegmentTree) (index val : Nat) : SegmentTree :=
  { st with tree := stUpdate (st.size + 1) st.tree 1 0 (st.size - 1) index val }

def SegmentTree.query (st : SegmentTree) (left right : Nat) : Nat :=
  stQuery (st.size + 1) st.tree 1 0 (st.size - 1) left right

inductive ValidationError where
  | invalid
deriving Repr, DecidableEq

/-- The horizon of the mortality tracker: a full year including the leap
day. -/
def horizonH : Nat := 366

/-- Modelled from the spec: `CameroonMortalityTracker` (its module is not in
the repository snapshot) — a fixed-horizon ledger over `H = 366` days on top
of the segment tree. -/
structure MortalityLedger where
  st : SegmentTree
deriving Repr

def MortalityLedger.create : MortalityLedger := ⟨SegmentTree.create horizonH⟩

/-- Modelled from the spec: `recordMortality(day, count)` fails with
`ValidationError` if `day` is outside `[0, H)` or `count` is negative;
otherwise adds `count` to that day.  Validation happens before any write. -/
def MortalityLedger.recordMortality (led : MortalityLedger) (day count : Int) :
    Except ValidationError MortalityLedger :=
  if day < 0 ∨ (horizonH : Int) ≤ day then .error .invalid
  else if count < 0 then .error .invalid
  else .ok ⟨led.st.update day.toNat count.toNat⟩

/-- The ledger a caller keeps after a `recordMortality` attempt: the new one
on success, the untouched one on a `ValidationError`. -/
def MortalityLedger.recordMortalityD (led : MortalityLedger) (day count : Int) :
    MortalityLedger :=
  match led.recordMortality day count with
  | .ok l => l
  | .error _ => led

/-- Whether a `recordMortality` attempt succeeds. -/
def MortalityLedger.recordOk (led : MortalityLedger) (day count : Int) : Bool :=
  match led.recordMortality day count with
  | .ok _ => true
  | .error _ => false

/-- Modelled from the spec: `rangeTotal(startDay, endDay)` — inclusive start,
exclusive end. -/
def MortalityLedger.rangeTotal (led : MortalityLedger) (startDay endDay : Nat) : Nat :=
  if endDay ≤ startDay then 0 else led.st.query startDay (endDay - 1)

/-- Modelled from the spec: `totalMortality()` is the range total over the
whole horizon. -/
def MortalityLedger.totalMortality (led : MortalityLedger) : Nat :=
  led.rangeTotal 0 horizonH

def c3Ledger : Except ValidationError MortalityLedger := do
  let l1 ← MortalityLedger.create.recordMortality 0 100
  l1.recordMortality 100 50

/-- C3: on the fresh 366-day ledger, `recordMortality(0, 100)` then
`recordMortality(100, 50)` gives `totalMortality() = 150` while
`rangeTotal(0, 100) = 100` — the delta at day 0 is included and the delta at
day 100 is excluded. -/
theorem c3_mortality_totals :
    (c3Ledger.map fun l => (l.totalMortality, l.rangeTotal 0 100)) =
      .ok (150, 100) := by
  rfl

/-- C4: `recordMortality(day, count)` succeeds exactly when `day ∈ [0, 366)`
and `count ≥ 0` (in particular `day = 366` and `day = -1` fail with a
`ValidationError`), and a failing call leaves the ledger exactly as it was. -/
theorem c4_record_mortality_validation :
    (∀ (l : MortalityLedger) (day count : Int),
      l.recordOk day count = true ↔ (0 ≤ day ∧ day < 366 ∧ 0 ≤ count)) ∧
    MortalityLedger.create.recordMortality 366 5 = .error .invalid ∧
    MortalityLedger.create.recordMortality (-1) 5 = .error .invalid ∧
    (∀ (l : MortalityLedger) (day count : Int),
      l.recordOk day count = false → l.recordMortalityD day count = l) := by
  refine ⟨?_, rfl, rfl, ?_⟩
  · intro l day count
    unfold MortalityLedger.recordOk MortalityLedger.recordMortality horizonH
    split_ifs with h1 h2 <;> simp <;> omega
  · intro l day count h
    unfold MortalityLedger.recordMortalityD
    unfold MortalityLedger.recordOk at h
    cases hrec : l.recordMortality day count with
    | ok l' => rw [hrec] at h; simp at h
    | error e => rfl

/-- Witness for C4: the failing `recordMortality(-1, 5)` leaves the fresh
ledger unchanged. -/
theorem c4_record_mortality_validation_witness :
    MortalityLedger.create.recordMortalityD (-1) 5 = MortalityLedger.create :=
  c4_record_mortality_validation.2.2.2 MortalityLedger.create (-1) 5 rfl

/-! ## Triage display status (C10)

Embedded from `frontend/app/triage/page.tsx` and
`frontend/components/triage-table.tsx`:
`status: alert.priority_level === 1 ? 'critical' :
 alert.priority_level === 2 ? 'escalated' : 'controlled'`. -/

def statusOfPriority (priorityLevel : Nat) : String :=
  if priorityLevel = 1 then "critical"
  else if priorityLevel = 2 then "escalated"
  else "controlled"

/-- The fields of an alert the display layer receives; `status` is derived
from `priority_level` alone. -/
structure AlertView where
  priority_level : Nat
  disease_name : String
  location : String
deriving Repr, DecidableEq

def AlertView.status (a : AlertView) : String := statusOfPriority a.priority_level

/-- C10: the displayed status is a pure function of the priority level —
1 ↦ critical, 2 ↦ escalated, everything else (3, 4, 5 included) ↦
controlled — so equal priorities always display equal statuses. -/
theorem c10_status_pure_function_of_priority :
    statusOfPriority 1 = "critical" ∧ statusOfPriority 2 = "escalated" ∧
    statusOfPriority 3 = "controlled" ∧ statusOfPriority 4 = "controlled" ∧
    statusOfPriority 5 = "controlled" ∧
    (∀ p : Nat, p ≠ 1 → p ≠ 2 → statusOfPriority p = "controlled") ∧
    (∀ a b : AlertView, a.priority_level = b.priority_level →
      a.status = b.status) := by
  refine ⟨rfl, rfl, rfl, rfl, rfl, ?_, ?_⟩
  · intro p h1 h2
    unfold statusOfPriority
    rw [if_neg h1, if_neg h2]
  · intro a b h
    unfold AlertView.status
    rw [h]

/-- Witness for C10 on a priority outside {1, 2} and on two alerts of equal
priority but different payloads. -/
theorem c10_status_pure_function_of_priority_witness :
    statusOfPriority 7 = "controlled" ∧
    (AlertView.mk 2 "anthrax" "Maroua").status =
      (AlertView.mk 2 "rabies" "Tibati").status :=
  ⟨c10_status_pure_function_of_priority.2.2.2.2.2.1 7 (by decide) (by decide),
    c10_status_pure_function_of_priority.2.2.2.2.2.2
      (AlertView.mk 2 "anthrax" "Maroua") (AlertView.mk 2 "rabies" "Tibati") rfl⟩

/-! ## TriageQueue priority scoring (C6) -/

/-- Modelled from the spec: the static `DiseaseSeverityTable` — diseases
pre-classified; anthrax and avian influenza default to level 1
(`priority_queue.py` is not in the repository snapshot). -/
def severityTable : List (String × Nat) := [("anthrax", 1), ("avian influenza", 1)]

/-- Modelled from the spec: `computePriority(diseaseName, mortalityCount,
clusterBoost)` — severity-table base level (3 for unknown diseases), escalated
one level (never below 1) when the mortality count exceeds the configured
threshold, and one further level when `clusterBoost` holds. -/
def computePriority (mortalityThreshold : Nat) (diseaseName : String)
    (mortalityCount : Nat) (clusterBoost : Bool) : Nat :=
  let base := (severityTable.lookup diseaseName).getD 3
  let esc1 := if mortalityThreshold < mortalityCount then max 1 (base - 1) else base
  if clusterBoost then max 1 (esc1 - 1) else esc1

lemma severity_ge_one (d : String) : 1 ≤ (severityTable.lookup d).getD 3 := by
  unfold severityTable
  by_cases h1 : (d == "anthrax") = true <;>
    by_cases h2 : (d == "avian influenza") = true <;>
    simp [List.lookup, h1, h2]

/-- C6: `computePriority("anthrax", 0, false) = 1` and
`computePriority("unknown disease", 0, false) = 3`; in general the result is
the severity-table base (3 for unknown diseases), stepped one level closer to
1 when the mortality count exceeds the threshold and one further level under
`clusterBoost`, and never goes below level 1. -/
theorem c6_compute_priority_levels :
    (∀ thr : Nat, computePriority thr "anthrax" 0 false = 1) ∧
    (∀ thr : Nat, computePriority thr "unknown disease" 0 false = 3) ∧
    (∀ thr d m b, 1 ≤ computePriority thr d m b) ∧
    (∀ thr d, severityTable.lookup d = none →
      computePriority thr d 0 false = 3) ∧
    (∀ thr d m, thr < m →
      computePriority thr d m false = max 1 ((severityTable.lookup d).getD 3 - 1)) ∧
    (∀ thr d m, ¬ thr < m →
      computePriority thr d m false = (severityTable.lookup d).getD 3) ∧
    (∀ thr d m, computePriority thr d m true =
      max 1 (computePriority thr d m false - 1)) := by
  refine ⟨?_, ?_, ?_, ?_, ?_, ?_, ?_⟩
  · intro thr
    simp [computePriority, severityTable, List.lookup]
  · intro thr
    simp [computePriority, severityTable, List.lookup]
  · intro thr d m b
    unfold computePriority
    have hbase := severity_ge_one d
    cases b <;> by_cases hm : thr < m <;>
      (simp [hm]; try omega)
  · intro thr d h
    simp [computePriority, h]
  · intro thr d m h
    simp [computePriority, h]
  · intro thr d m h
    simp [computePriority, h]
  · intro thr d m
    by_cases hm : thr < m <;> simp [computePriority, hm]

/-- Witness for C6 on a disease absent from the severity table and a
mortality-count escalation. -/
theorem c6_compute_priority_levels_witness :
    computePriority 10 "rift valley fever" 0 false = 3 ∧
    computePriority 10 "unknown disease" 11 false = 2 := by
  refine ⟨c6_compute_priority_levels.2.2.2.1 10 "rift valley fever" (by decide), ?_⟩
  have h := c6_compute_priority_levels.2.2.2.2.1 10 "unknown disease" 11 (by decide)
  rw [h]
  decide

/-! ## PrefixIndex (C5)

`insert` is embedded from the report.md Trie source (children map keyed by
character, `is_end_of_word` terminal flag; the association list keeps the
dict's insertion order).  `autocomplete` is only a comment stub in report.md,
so it is modelled from the spec: up to `limit` known names sharing the
prefix case-insensitively, ordered shortest-first with lexicographic
tie-break.  Names are sequences of characters (`List Char`). -/

inductive Trie where
  | node (isEnd : Bool) (children : List (Char × Trie))
deriving Repr

def Trie.empty : Trie := .node false []

def lookupChild : List (Char × Trie) → Char → Option Trie
  | [], _ => none
  | (c', t) :: tl, c => if c' = c then some t else lookupChild tl c

def setChild : List (Char × Trie) → Char → Trie → List (Char × Trie)
  | [], c, t => [(c, t)]
  | (c', t') :: tl, c, t =>
    if c' = c then (c', t) :: tl else (c', t') :: setChild tl c t

/-- Method `Trie.insert` from report.md: walk the characters, creating missing child
nodes, and mark the final node as end of word. -/
def Trie.insertAux : List Char → Trie → Trie
  | [], .node _ ch => .node true ch
  | c :: rest, .node e ch =>
    let sub := (lookupChild ch c).getD Trie.empty
    .node e (setChild ch c (Trie.insertAux rest sub))

def Trie.insert (t : Trie) (w : List Char) : Trie := Trie.insertAux w t

mutual

def Trie.wordsAux : Trie → List Char → List (List Char)
  | .node e ch, acc => (if e then [acc.reverse] else []) ++ childWordsAux ch acc

def childWordsAux : List (Char × Trie) → List Char → List (List Char)
  | [], _ => []
  | (c, t) :: tl, acc => Trie.wordsAux t (c :: acc) ++ childWordsAux tl acc

end

/-- All complete names stored in the trie. -/
def Trie.words (t : Trie) : List (List Char) := t.wordsAux []

def buildTrie (ws : List (List Char)) : Trie := ws.foldl Trie.insert Trie.empty

def lowerName (w : List Char) : List Char := w.map Char.toLower

/-- Case-insensitive "w starts with pre". -/
def matchesPre (pre w : List Char) : Bool :=
  (lowerName pre).isPrefixOf (lowerName w)

def lexLE : List Char → List Char → Bool
  | [], _ => true
  | _ :: _, [] => false
  | a :: as, b :: bs => if a < b then true else if a = b then lexLE as bs else false

/-- Spec ordering: shortest length first, lexicographic tie-break. -/
def nameLE (a b : List Char) : Bool :=
  decide (a.length < b.length) ||
    (decide (a.length = b.length) && lexLE a b)

/-- Modelled from the spec: `autocomplete(prefix, limit)` — the names sharing
the prefix case-insensitively, in the spec order, truncated to `limit`. -/
def Trie.autocomplete (t : Trie) (pre : List Char) (limit : Nat) : List (List Char) :=
  (((t.words).filter (fun w => matchesPre pre w)).mergeSort nameLE).take limit

lemma childWords_lookup {ch : List (Char × Trie)} {c : Char} {t' : Trie}
    (h : lookupChild ch c = some t') (acc : List Char) :
    ∀ w, w ∈ t'.wordsAux (c :: acc) → w ∈ childWordsAux ch acc := by
  induction ch with
  | nil => cases h
  | cons hd tl ih =>
    obtain ⟨c', t⟩ := hd
    intro w hw
    by_cases hc : c' = c
    · rw [show lookupChild ((c', t) :: tl) c = some t from by
        simp [lookupChild, hc]] at h
      injection h with h
      subst h
      subst hc
      exact List.mem_append_left _ hw
    · rw [show lookupChild ((c', t) :: tl) c = lookupChild tl c from by
        simp [lookupChild, hc]] at h
      exact List.mem_append_right _ (ih h w hw)

lemma childWords_set {ch : List (Char × Trie)} {c : Char} {u : Trie} {acc : List Char} :
    ∀ w, w ∈ childWordsAux (setChild ch c u) acc →
      w ∈ u.wordsAux (c :: acc) ∨ w ∈ childWordsAux ch acc := by
  induction ch with
  | nil =>
    intro w hw
    simp only [setChild, childWordsAux] at hw
    exact Or.inl (by simpa using hw)
  | cons hd tl ih =>
    obtain ⟨c', t'⟩ := hd
    intro w hw
    by_cases hc : c' = c
    · rw [show setChild ((c', t') :: tl) c u = (c', u) :: tl from by
        simp [setChild, hc]] at hw
      rcases List.mem_append.mp hw with h | h
      · subst hc
        exact Or.inl h
      · exact Or.inr (List.mem_append_right _ h)
    · rw [show setChild ((c', t') :: tl) c u = (c', t') :: setChild tl c u from by
        simp [setChild, hc]] at hw
      rcases List.mem_append.mp hw with h | h
      · exact Or.inr (List.mem_append_left _ h)
      · rcases ih w h with h' | h'
        · exact Or.inl h'
        · exact Or.inr (List.mem_append_right _ h')

/-- Soundness of `insert`: a collected name is the inserted one or was
already present. -/
lemma wordsAux_insertAux (cs : List Char) :
    ∀ (t : Trie) (acc w : List Char),
      w ∈ (Trie.insertAux cs t).wordsAux acc →
        w = acc.reverse ++ cs ∨ w ∈ t.wordsAux acc := by
  induction cs with
  | nil =>
    intro t acc w h
    obtain ⟨e, ch⟩ := t
    simp only [Trie.insertAux, Trie.wordsAux] at h ⊢
    rcases List.mem_append.mp h with h | h
    · have hw : w = acc.reverse := by simpa using h
      exact Or.inl (by simp [hw])
    · exact Or.inr (List.mem_append_right _ h)
  | cons c rest ih =>
    intro t acc w h
    obtain ⟨e, ch⟩ := t
    simp only [Trie.insertAux, Trie.wordsAux] at h ⊢
    rcases List.mem_append.mp h with h | h
    · exact Or.inr (List.mem_append_left _ h)
    · rcases childWords_set w h with h' | h'
      · rcases ih _ (c :: acc) w h' with h'' | h''
        · left
          rw [h'']
          simp
        · cases hlk : lookupChild ch c with
          | some t' =>
            rw [hlk] at h'
            exact Or.inr (List.mem_append_right _
              (childWords_lookup hlk acc w (by simpa [hlk] using h'')))
          | none =>
            rw [hlk] at h''
            simp [Trie.empty, Trie.wordsAux, childWordsAux] at h''
      · exact Or.inr (List.mem_append_right _ h')

lemma words_buildTrie_subset (ws : List (List Char)) :
    ∀ w, w ∈ (buildTrie ws).words → w ∈ ws := by
  have main : ∀ (vs : List (List Char)) (t : Trie) (w : List Char),
      w ∈ (vs.foldl Trie.insert t).words → w ∈ vs ∨ w ∈ t.words := by
    intro vs
    induction vs with
    | nil => exact fun t w h => Or.inr h
    | cons v tl ih =>
      intro t w h
      rcases ih (t.insert v) w (by simpa using h) with h1 | h1
      · exact Or.inl (List.mem_cons_of_mem _ h1)
      · rcases wordsAux_insertAux v t [] w h1 with h2 | h2
        · exact Or.inl (by simp [h2])
        · exact Or.inr h2
  intro w h
  rcases main ws Trie.empty w h with h1 | h1
  · exact h1
  · simp [Trie.empty, Trie.words, Trie.wordsAux, childWordsAux] at h1

lemma lexLE_total : ∀ a b : List Char, (lexLE a b || lexLE b a) = true := by
  intro a
  induction a with
  | nil => intro b; simp [lexLE]
  | cons c as ih =>
    intro b
    cases b with
    | nil => simp [lexLE]
    | cons d bs =>
      rcases lt_trichotomy c d with h | h | h
      · simp [lexLE, h]
      · subst h
        simp only [lexLE, lt_irrefl, if_neg (lt_irrefl c), if_pos rfl]
        exact ih bs
      · simp [lexLE, h, not_lt_of_gt h, (ne_of_gt h)]

lemma lexLE_trans :
    ∀ a b c : List Char, lexLE a b = true → lexLE b c = true → lexLE a c = true := by
  intro a
  induction a with
  | nil => intro b c _ _; simp [lexLE]
  | cons x as ih =>
    intro b c hab hbc
    cases b with
    | nil => simp [lexLE] at hab
    | cons y bs =>
      cases c with
      | nil => simp [lexLE] at hbc
      | cons z cs =>
        simp only [lexLE] at hab hbc ⊢
        by_cases hxy : x < y
        · by_cases hyz : y < z
          · rw [if_pos (lt_trans hxy hyz)]
          · rw [if_neg hyz] at hbc
            by_cases hyz' : y = z
            · subst hyz'
              rw [if_pos hxy]
            · simp [hyz'] at hbc
        · rw [if_neg hxy] at hab
          by_cases hxy' : x = y
          · subst hxy'
            rw [if_pos rfl] at hab
            by_cases hyz : x < z
            · rw [if_pos hyz]
            · rw [if_neg hyz] at hbc ⊢
              by_cases hyz' : x = z
              · rw [if_pos hyz'] at hbc ⊢
                exact ih bs cs hab hbc
              · simp [hyz'] at hbc
          · simp [hxy'] at hab

lemma nameLE_total : ∀ a b : List Char, (nameLE a b || nameLE b a) = true := by
  intro a b
  unfold nameLE
  rcases lt_trichotomy a.length b.length with h | h | h
  · simp [h]
  · have := lexLE_total a b
    rcases Bool.or_eq_true_iff.mp this with h1 | h1 <;> simp [h, h1]
  · simp [h]

lemma nameLE_trans :
    ∀ a b c : List Char, nameLE a b = true → nameLE b c = true → nameLE a c = true := by
  intro a b c hab hbc
  unfold nameLE at hab hbc ⊢
  rcases Bool.or_eq_true_iff.mp hab with h1 | h1 <;>
    rcases Bool.or_eq_true_iff.mp hbc with h2 | h2
  · simp only [decide_eq_true_eq] at h1 h2
    simp [Nat.lt_trans h1 h2]
  · obtain ⟨h2a, _⟩ := Bool.and_eq_true_iff.mp h2
    simp only [decide_eq_true_eq] at h1 h2a
    simp [h2a ▸ h1]
  · obtain ⟨h1a, _⟩ := Bool.and_eq_true_iff.mp h1
    simp only [decide_eq_true_eq] at h1a h2
    simp [h1a ▸ h2]
  · obtain ⟨h1a, h1b⟩ := Bool.and_eq_true_iff.mp h1
    obtain ⟨h2a, h2b⟩ := Bool.and_eq_true_iff.mp h2
    simp only [decide_eq_true_eq] at h1a h2a
    simp [h1a.trans h2a, lexLE_trans a b c h1b h2b]

/-- C5: `autocomplete(p, n)` on the index built from any inserted names
returns at most `n` names, each an inserted name sharing prefix `p`
case-insensitively, in shortest-first/lexicographic order; a prefix matching
no inserted name yields the empty sequence. -/
theorem c5_autocomplete_contract (ws : List (List Char)) (pre : List Char) (limit : Nat) :
    ((buildTrie ws).autocomplete pre limit).length ≤ limit ∧
    (∀ w ∈ (buildTrie ws).autocomplete pre limit,
      matchesPre pre w = true ∧ w ∈ ws) ∧
    List.Pairwise (fun a b => nameLE a b = true)
      ((buildTrie ws).autocomplete pre limit) ∧
    ((∀ w ∈ ws, matchesPre pre w = false) →
      (buildTrie ws).autocomplete pre limit = []) := by
  refine ⟨?_, ?_, ?_, ?_⟩
  · unfold Trie.autocomplete
    rw [List.length_take]
    exact min_le_left _ _
  · intro w hw
    unfold Trie.autocomplete at hw
    have hw1 : w ∈ ((buildTrie ws).words.filter (fun w => matchesPre pre w)).mergeSort nameLE :=
      List.mem_of_mem_take hw
    have hw2 := List.mem_mergeSort.mp hw1
    exact ⟨List.of_mem_filter hw2, words_buildTrie_subset ws w (List.mem_of_mem_filter hw2)⟩
  · unfold Trie.autocomplete
    exact List.Pairwise.sublist (List.take_sublist _ _)
      (List.sorted_mergeSort nameLE_trans nameLE_total _)
  · intro hnone
    unfold Trie.autocomplete
    have hfil : (buildTrie ws).words.filter (fun w => matchesPre pre w) = [] := by
      rw [List.filter_eq_nil_iff]
      intro w hw
      rw [hnone w (words_buildTrie_subset ws w hw)]
      simp
    rw [hfil]
    simp

/-- Witness for C5: a prefix matching no inserted name yields `[]`. -/
theorem c5_autocomplete_contract_witness :
    (buildTrie [['a', 'x'], ['b']]).autocomplete ['z'] 5 = [] :=
  (c5_autocomplete_contract [['a', 'x'], ['b']] ['z'] 5).2.2.2 (by decide)

/-! ## RouteNetwork (C7)

Modelled from the spec (`Transhumance.py` is not in the repository
snapshot): a directed weighted graph over location names; `safeRoute` picks
among the simple paths the one minimising effective weight, tie-broken by
fewer hops then lexicographically smallest name sequence, and reports the
path with its cumulative effective weight.  To keep the arithmetic exact in
the embedding, multipliers are stored in tenths: dry season 1.0 ↦ 10, the
configured rainy factor 2.5 ↦ 25, and every weight below is the spec's
weight scaled by the fixed factor 10, which preserves all comparisons. -/

structure RouteEdge where
  src : String
  dst : String
  baseWeight : Nat
  region : String
deriving Repr, DecidableEq

structure RouteNetwork where
  nodes : List String
  edges : List RouteEdge
  rainMultipliers : List (String × Nat)
deriving Repr

/-- The dry-season multiplier 1.0, in tenths. -/
def dryMult : Nat := 10

def seasonalMultiplier (net : RouteNetwork) (region : String) (isRainySeason : Bool) : Nat :=
  if isRainySeason then (net.rainMultipliers.lookup region).getD dryMult else dryMult

def effectiveWeight (net : RouteNetwork) (isRainySeason : Bool) (e : RouteEdge) : Nat :=
  e.baseWeight * seasonalMultiplier net e.region isRainySeason

def pathWeight (net : RouteNetwork) (isRainySeason : Bool) (p : List RouteEdge) : Nat :=
  (p.map (effectiveWeight net isRainySeason)).sum

def edgesFrom (net : RouteNetwork) (v : String) : List RouteEdge :=
  net.edges.filter (fun e => e.src == v)

/-- All simple paths from `cur` to `target` (fuel bounds the hop count). -/
def pathsAux : Nat → RouteNetwork → String → String → List String → List (List RouteEdge)
  | 0, _, _, _, _ => []
  | fuel+1, net, cur, target, visited =>
    if cur = target then [[]]
    else
      (edgesFrom net cur).flatMap (fun e =>
        if e.dst ∈ visited then []
        else (pathsAux fuel net e.dst target (e.dst :: visited)).map (fun p => e :: p))

def routeCandidates (net : RouteNetwork) (start finish : String) : List (List RouteEdge) :=
  pathsAux (net.nodes.length + 1) net start finish [start]

def pathNames (start : String) (p : List RouteEdge) : List String :=
  start :: p.map (fun e => e.dst)

def namesLexLE : List String → List String → Bool
  | [], _ => true
  | _ :: _, [] => false
  | a :: as, b :: bs => if a < b then true else if a = b then namesLexLE as bs else false

/-- The spec's route preference: lower effective weight, then fewer hops,
then lexicographically smaller name sequence. -/
def betterRoute (net : RouteNetwork) (season : Bool) (start : String)
    (p q : List RouteEdge) : Bool :=
  decide (pathWeight net season p < pathWeight net season q) ||
    (decide (pathWeight net season p = pathWeight net season q) &&
      (decide (p.length < q.length) ||
        (decide (p.length = q.length) &&
          namesLexLE (pathNames start p) (pathNames start q))))

def pickBest (net : RouteNetwork) (season : Bool) (start : String) :
    List (List RouteEdge) → Option (List RouteEdge)
  | [] => none
  | p :: ps =>
    some (ps.foldl (fun best q => if betterRoute net season start q best then q else best) p)

structure RouteResult where
  path : List String
  edges : List RouteEdge
  totalWeight : Nat
deriving Repr, DecidableEq

inductive RouteError where
  | notFound
  | unreachable
deriving Repr, DecidableEq

/-- Modelled from the spec: `safeRoute(start, end, isRainySeason)` — shortest
path by effective weight with the documented tie-breaks; `NotFoundError` for
unregistered endpoints, `UnreachableError` when no path exists. -/
def RouteNetwork.safeRoute (net : RouteNetwork) (start finish : String)
    (isRainySeason : Bool) : Except RouteError RouteResult :=
  if start ∈ net.nodes ∧ finish ∈ net.nodes then
    match pickBest net isRainySeason start (routeCandidates net start finish) with
    | some p => .ok ⟨pathNames start p, p, pathWeight net isRainySeason p⟩
    | none => .error .unreachable
  else .error .notFound

lemma foldl_pick_mem (net : RouteNetwork) (season : Bool) (start : String) :
    ∀ (ps : List (List RouteEdge)) (acc : List RouteEdge),
      ps.foldl (fun best q => if betterRoute net season start q best then q else best) acc
        ∈ acc :: ps := by
  intro ps
  induction ps with
  | nil => intro acc; exact List.mem_singleton.mpr rfl
  | cons q qs ih =>
    intro acc
    have h := ih (if betterRoute net season start q acc then q else acc)
    rcases List.mem_cons.mp h with h1 | h1
    · rw [List.foldl_cons, h1]
      split
      · exact List.mem_cons_of_mem _ (List.mem_cons_self _ _)
      · exact List.mem_cons_self _ _
    · rw [List.foldl_cons]
      exact List.mem_cons_of_mem _ (List.mem_cons_of_mem _ h1)

lemma pickBest_mem {net : RouteNetwork} {season : Bool} {start : String}
    {l : List (List RouteEdge)} {p : List RouteEdge}
    (h : pickBest net season start l = some p) : p ∈ l := by
  cases l with
  | nil => cases h
  | cons p0 ps =>
    simp only [pickBest, Option.some.injEq] at h
    rw [← h]
    exact foldl_pick_mem net season start ps p0

lemma pathsAux_edges (net : RouteNetwork) (target : String) :
    ∀ (fuel : Nat) (cur : String) (visited : List String)
      (p : List RouteEdge), p ∈ pathsAux fuel net cur target visited →
        ∀ e ∈ p, e ∈ net.edges := by
  intro fuel
  induction fuel with
  | zero => intro cur visited p hp; cases hp
  | succ fuel ih =>
    intro cur visited p hp e he
    by_cases hct : cur = target
    · simp only [pathsAux, if_pos hct, List.mem_singleton] at hp
      subst hp
      cases he
    · simp only [pathsAux, if_neg hct, List.mem_flatMap] at hp
      obtain ⟨e0, he0, hp0⟩ := hp
      by_cases hv : e0.dst ∈ visited
      · rw [if_pos hv] at hp0
        cases hp0
      · rw [if_neg hv] at hp0
        obtain ⟨p', hp', rfl⟩ := List.mem_map.mp hp0
        rcases List.mem_cons.mp he with rfl | he'
        · exact List.mem_of_mem_filter he0
        · exact ih e0.dst (e0.dst :: visited) p' hp' e he'

lemma safeRoute_ok {net : RouteNetwork} {start finish : String} {season : Bool}
    {res : RouteResult} (h : net.safeRoute start finish season = .ok res) :
    res.totalWeight = pathWeight net season res.edges ∧
      ∀ e ∈ res.edges, e ∈ net.edges := by
  unfold RouteNetwork.safeRoute at h
  by_cases hmem : start ∈ net.nodes ∧ finish ∈ net.nodes
  · rw [if_pos hmem] at h
    cases hp : pickBest net season start (routeCandidates net start finish) with
    | none => rw [hp] at h; cases h
    | some p =>
      rw [hp] at h
      injection h with h
      subst h
      refine ⟨rfl, ?_⟩
      exact pathsAux_edges net finish _ start [start] p (pickBest_mem hp)
  · rw [if_neg hmem] at h
    cases h

lemma pathWeight_le (net : RouteNetwork) :
    ∀ p : List RouteEdge,
      (∀ e ∈ p, dryMult ≤ seasonalMultiplier net e.region true) →
        pathWeight net false p ≤ pathWeight net true p := by
  intro p
  induction p with
  | nil => intro _; exact le_refl _
  | cons e es ih =>
    intro hm
    simp only [pathWeight, List.map_cons, List.sum_cons] at ih ⊢
    refine Nat.add_le_add ?_ (ih fun e' he' => hm e' (List.mem_cons_of_mem _ he'))
    unfold effectiveWeight
    exact Nat.mul_le_mul_left _ (hm e (List.mem_cons_self _ _))

lemma pathWeight_lt (net : RouteNetwork) :
    ∀ p : List RouteEdge,
      (∀ e ∈ p, 0 < e.baseWeight) →
      (∀ e ∈ p, dryMult ≤ seasonalMultiplier net e.region true) →
      (∃ e ∈ p, dryMult < seasonalMultiplier net e.region true) →
        pathWeight net false p < pathWeight net true p := by
  intro p
  induction p with
  | nil =>
    intro _ _ hr
    obtain ⟨e, he, _⟩ := hr
    cases he
  | cons e es ih =>
    intro hb hm hr
    simp only [pathWeight, List.map_cons, List.sum_cons] at ih ⊢
    obtain ⟨e', he', hgt⟩ := hr
    rcases List.mem_cons.mp he' with rfl | hes
    · refine Nat.add_lt_add_of_lt_of_le ?_
        (pathWeight_le net es fun x hx => hm x (List.mem_cons_of_mem _ hx))
      unfold effectiveWeight
      have h0 : seasonalMultiplier net e'.region false = dryMult := rfl
      rw [h0]
      exact mul_lt_mul_of_pos_left hgt (hb e' (List.mem_cons_self _ _))
    · refine Nat.add_lt_add_of_le_of_lt ?_
        (ih (fun x hx => hb x (List.mem_cons_of_mem _ hx))
          (fun x hx => hm x (List.mem_cons_of_mem _ hx)) ⟨e', hes, hgt⟩)
      unfold effectiveWeight
      exact Nat.mul_le_mul_left _ (hm e (List.mem_cons_self _ _))

/-- C7: whenever the rainy-season and dry-season `safeRoute` between two
registered locations return the same sequence of edges and at least one
traversed edge lies in a rain-affected region (multiplier above 1.0), the
rainy total weight is strictly greater than the dry one — each edge's
effective weight being its base weight times a multiplier that is 1.0 in the
dry season and the configured factor for rain-affected regions. -/
theorem c7_rainy_route_strictly_heavier (net : RouteNetwork) (a b : String)
    (resR resD : RouteResult)
    (hbase : ∀ e ∈ net.edges, 0 < e.baseWeight)
    (hmult : ∀ r, dryMult ≤ (net.rainMultipliers.lookup r).getD dryMult)
    (hR : net.safeRoute a b true = .ok resR)
    (hD : net.safeRoute a b false = .ok resD)
    (hsame : resR.edges = resD.edges)
    (hrain : ∃ e ∈ resD.edges,
      dryMult < (net.rainMultipliers.lookup e.region).getD dryMult) :
    resD.totalWeight < resR.totalWeight := by
  obtain ⟨hwR, _⟩ := safeRoute_ok hR
  obtain ⟨hwD, heD⟩ := safeRoute_ok hD
  rw [hwD, hwR, hsame]
  refine pathWeight_lt net resD.edges (fun e he => hbase e (heD e he)) ?_ ?_
  · intro e _
    simpa [seasonalMultiplier] using hmult e.region
  · obtain ⟨e, he, hgt⟩ := hrain
    exact ⟨e, he, by simpa [seasonalMultiplier] using hgt⟩

/-- The concrete corridor used to witness C7: one edge Ngaoundéré → Maroua of
base weight 150, in the rain-affected Adamawa region (factor 2.5 ↦ 25). -/
def c7Edge : RouteEdge := ⟨"Ngaoundéré", "Maroua", 150, "Adamawa"⟩

def c7Net : RouteNetwork :=
  ⟨["Ngaoundéré", "Maroua"], [c7Edge], [("Adamawa", 25)]⟩

/-- Witness for C7 on the concrete corridor: dry total 1500, rainy total
3750 (in tenths: 150.0 versus 375.0). -/
theorem c7_rainy_route_strictly_heavier_witness :
    (RouteResult.mk ["Ngaoundéré", "Maroua"] [c7Edge] 1500).totalWeight <
      (RouteResult.mk ["Ngaoundéré", "Maroua"] [c7Edge] 3750).totalWeight :=
  c7_rainy_route_strictly_heavier c7Net "Ngaoundéré" "Maroua"
    (RouteResult.mk ["Ngaoundéré", "Maroua"] [c7Edge] 3750)
    (RouteResult.mk ["Ngaoundéré", "Maroua"] [c7Edge] 1500)
    (by decide)
    (by
      intro r
      unfold dryMult
      by_cases h : (r == "Adamawa") = true <;> simp [List.lookup, h])
    rfl rfl rfl
    ⟨c7Edge, by decide, by decide⟩

/-! ## TriageService offline replay (C8)

Modelled from the spec (`service.py` and `data_persistence.py` are not in the
repository snapshot): the orchestrator pipeline applies a report's mortality
delta to the MortalityLedger and links its location in the ClusterRegistry;
while offline, classified reports are appended to the OfflineLedger buffer;
on the transition to Online the buffer is drained strictly in insertion
order.  Per the spec's design note, every buffered entry carries a unique
identifier and `markReplayed` gates re-application, so replay is at most
once. -/

structure Report where
  id : Nat
  diseaseName : String
  location : String
  reporterId : String
  mortalityCount : Nat
  day : Nat
  linkTo : Option String
deriving Repr, DecidableEq

structure ServiceState where
  ledger : MortalityLedger
  registry : ClusterRegistry
  buffer : List Report
  replayedIds : List Nat
  online : Bool

/-- Modelled from the spec: one pass of the pipeline over a classified
report — record its mortality on the report's day and link its location
into the cluster registry (no-op union on failure, per §7: no error corrupts
a shared structure). -/
def processReport (s : ServiceState) (r : Report) : ServiceState :=
  let led := s.ledger.recordMortalityD r.day r.mortalityCount
  let reg0 := s.registry.addLocation r.location
  let reg :=
    match r.linkTo with
    | some other =>
      match reg0.union r.location other with
      | .ok reg' => reg'
      | .error _ => reg0
    | none => reg0
  { s with ledger := led, registry := reg }

/-- Modelled from the spec (§9 safer default): replay one buffered entry —
skipped entirely when its unique id is already marked replayed, otherwise
run through the same pipeline and marked. -/
def replayEntry (s : ServiceState) (r : Report) : ServiceState :=
  if r.id ∈ s.replayedIds then s
  else
    let s' := processReport s r
    { s' with replayedIds := r.id :: s'.replayedIds }

def replayAll (s : ServiceState) (entries : List Report) : ServiceState :=
  entries.foldl replayEntry s

/-- Modelled from the spec: on the `Offline → Online` transition, drain the
OfflineLedger strictly in original insertion order through the pipeline. -/
def goOnline (s : ServiceState) : ServiceState :=
  { replayAll s s.buffer with buffer := [], online := true }

/-- Modelled from the spec: while offline a classified report is appended to
the OfflineLedger instead of being handed off. -/
def submitReport (s : ServiceState) (r : Report) : ServiceState :=
  if s.online then processReport s r
  else { s with buffer := s.buffer ++ [r] }

lemma replayEntry_idem (s : ServiceState) (r : Report) :
    replayEntry (replayEntry s r) r = replayEntry s r := by
  unfold replayEntry
  by_cases h : r.id ∈ s.replayedIds
  · rw [if_pos h, if_pos h]
  · rw [if_neg h]
    have hmem : r.id ∈ ({ processReport s r with
        replayedIds := r.id :: (processReport s r).replayedIds } : ServiceState).replayedIds :=
      List.mem_cons_self _ _
    rw [if_pos hmem]

/-- C8: the Online transition drains the buffer in exactly insertion order
(replaying a buffer split as `l1 ++ l2` replays all of `l1` before any of
`l2`), `goOnline` replays precisely the buffered entries in order, and
replaying the same buffered report a second time is a no-op: the resulting
state — in particular its mortality total and its cluster partition — is
identical, with no double-counted mortality and no second effective union. -/
theorem c8_replay_order_and_idempotence :
    (∀ (s : ServiceState) (r : Report), s.online = false →
      (submitReport s r).buffer = s.buffer ++ [r]) ∧
    (∀ (s : ServiceState) (l1 l2 : List Report),
      replayAll s (l1 ++ l2) = replayAll (replayAll s l1) l2) ∧
    (∀ s : ServiceState, goOnline s =
      { replayAll s s.buffer with buffer := [], online := true }) ∧
    (∀ (s : ServiceState) (r : Report),
      replayEntry (replayEntry s r) r = replayEntry s r) ∧
    (∀ (s : ServiceState) (r : Report),
      (replayEntry (replayEntry s r) r).ledger.totalMortality =
        (replayEntry s r).ledger.totalMortality ∧
      ∀ a b : String,
        (replayEntry (replayEntry s r) r).registry.connected a b =
          (replayEntry s r).registry.connected a b) := by
  refine ⟨?_, ?_, ?_, replayEntry_idem, ?_⟩
  · intro s r h
    unfold submitReport
    rw [h]
    simp
  · intro s l1 l2
    exact List.foldl_append _ _ _ _
  · intro s
    rfl
  · intro s r
    rw [replayEntry_idem s r]
    exact ⟨rfl, fun _ _ => rfl⟩

def c8State : ServiceState :=
  ⟨MortalityLedger.create, ClusterRegistry.empty, [], [], false⟩

def c8Report : Report := ⟨1, "anthrax", "Maroua", "VET-001", 5, 14, none⟩

/-- Witness for C8 at a concrete offline state: the submission is buffered in
insertion order. -/
theorem c8_replay_order_and_idempotence_witness :
    (submitReport c8State c8Report).buffer = [c8Report] :=
  c8_replay_order_and_idempotence.1 c8State c8Report rfl

end LSDN
